import Mathlib

/-!
Verification of the invoice-scanner core (`src/app.py`).

The Python source is shallowly embedded below:

* text is `List Char` (Python `str`);
* `json.loads` is embedded as a fuel-based recursive-descent JSON reader
  (`parseJson`), returning `none` where the Python call raises;
* the SQLAlchemy session in `save_invoice_to_db` is embedded as explicit
  state passing over a `DB` record, with an injectable failure point
  standing for an exception raised at any step of the transaction;
* file writes in `save_uploaded_images` are a write log on a `FileStore`.
-/

/-- Python strings are modelled as lists of characters. -/
abbrev Text := List Char

/-- Character list of a Lean string literal, for writing embedded constants. -/
def chars (s : String) : Text := s.data

/-- The whitespace set of Python `str.strip()` (ASCII part). -/
def isSpace (c : Char) : Bool :=
  c = ' ' || c = '\t' || c = '\n' || c = '\r' || c = '\x0b' || c = '\x0c'

/-- Left strip, as in Python `str.lstrip()`. -/
def stripL (s : Text) : Text := s.dropWhile isSpace

/-- Right strip, as in Python `str.rstrip()`. -/
def stripR (s : Text) : Text := (s.reverse.dropWhile isSpace).reverse

/-- Python `str.strip()`. -/
def strip (s : Text) : Text := stripR (stripL s)

/-- The whitespace characters skipped by the Python `json` scanner. -/
def isJsonWs (c : Char) : Bool :=
  c = ' ' || c = '\t' || c = '\n' || c = '\r'

/-- Skip JSON whitespace. -/
def skipWs (s : Text) : Text := s.dropWhile isJsonWs

/-- JSON values as produced by `json.loads`.  JSON `null` and the Python
`None` returned by `dict.get` on a missing key are both `JVal.null`.
Numeric literals are kept as their source token; no claim depends on
numeric arithmetic. -/
inductive JVal where
  | null : JVal
  | bool : Bool → JVal
  | num : Text → JVal
  | str : Text → JVal
  | arr : List JVal → JVal
  | obj : List (Text × JVal) → JVal

/-- Value of a hexadecimal digit. -/
def hexVal? (c : Char) : Option Nat :=
  if '0' ≤ c ∧ c ≤ '9' then some (c.toNat - '0'.toNat)
  else if 'a' ≤ c ∧ c ≤ 'f' then some (c.toNat - 'a'.toNat + 10)
  else if 'A' ≤ c ∧ c ≤ 'F' then some (c.toNat - 'A'.toNat + 10)
  else none

/-- Four hex digits to a code point. -/
def hex4 (a b c d : Char) : Option Nat :=
  match hexVal? a, hexVal? b, hexVal? c, hexVal? d with
  | some x, some y, some z, some w => some (((x * 16 + y) * 16 + z) * 16 + w)
  | _, _, _, _ => none

/-- Code point to character; invalid scalar values fall back to `Char.ofNat`'s
default.  `\uXXXX` escapes decode one at a time; surrogate halves are not
recombined (the string contents are not load-bearing for any claim). -/
def uChar (n : Nat) : Char := Char.ofNat n

/-- Single-character escapes accepted inside a JSON string. -/
def esChar (e : Char) : Option Char :=
  if e = '"' then some '"'
  else if e = '\\' then some '\\'
  else if e = '/' then some '/'
  else if e = 'b' then some '\x08'
  else if e = 'f' then some '\x0c'
  else if e = 'n' then some '\n'
  else if e = 'r' then some '\r'
  else if e = 't' then some '\t'
  else none

/-- Scan a JSON string body after the opening quote: returns the decoded
characters and the text after the closing quote.  Unescaped control
characters are rejected, as by `json.loads` in strict mode. -/
def scanStr (fuel : Nat) (s : Text) : Option (Text × Text) :=
  match fuel with
  | 0 => none
  | f + 1 =>
    match s with
    | [] => none
    | c :: r =>
      if c = '"' then some ([], r)
      else if c = '\\' then
        match r with
        | [] => none
        | e :: r2 =>
          if e = 'u' then
            match r2 with
            | a :: b :: d1 :: d2 :: r3 =>
              match hex4 a b d1 d2 with
              | some n => (scanStr f r3).map (fun p => (uChar n :: p.1, p.2))
              | none => none
            | _ => none
          else
            match esChar e with
            | some c2 => (scanStr f r2).map (fun p => (c2 :: p.1, p.2))
            | none => none
      else if c.toNat < 0x20 then none
      else (scanStr f r).map (fun p => (c :: p.1, p.2))

/-- The integer part of a JSON number: `0`, or a nonzero digit followed by
digits (leading zeros are not accepted, as in the `json` number grammar). -/
def scanIntPart (s : Text) : Option (Text × Text) :=
  match s with
  | [] => none
  | c :: r =>
    if c = '0' then some (['0'], r)
    else if c.isDigit then some (c :: r.takeWhile Char.isDigit, r.dropWhile Char.isDigit)
    else none

/-- The fraction part: `.` followed by at least one digit, else empty. -/
def scanFracPart (s : Text) : Text × Text :=
  match s with
  | [] => ([], [])
  | c :: r =>
    if c = '.' then
      if (r.takeWhile Char.isDigit) = [] then ([], c :: r)
      else ('.' :: r.takeWhile Char.isDigit, r.dropWhile Char.isDigit)
    else ([], c :: r)

/-- The exponent part: `e`/`E`, optional sign, at least one digit, else empty. -/
def scanExpPart (s : Text) : Text × Text :=
  match s with
  | [] => ([], [])
  | c :: r =>
    if c = 'e' ∨ c = 'E' then
      match r with
      | [] => ([], c :: r)
      | k :: r2 =>
        if k = '+' ∨ k = '-' then
          if (r2.takeWhile Char.isDigit) = [] then ([], c :: k :: r2)
          else (c :: k :: r2.takeWhile Char.isDigit, r2.dropWhile Char.isDigit)
        else
          if (r.takeWhile Char.isDigit) = [] then ([], c :: r)
          else (c :: r.takeWhile Char.isDigit, r.dropWhile Char.isDigit)
    else ([], c :: r)

/-- Number token after the optional leading sign has been taken off. -/
def scanNumCore (sg : Text) (t : Text) : Option (JVal × Text) :=
  match scanIntPart t with
  | none => none
  | some (ip, s2) =>
    let fp := scanFracPart s2
    let ep := scanExpPart fp.2
    some (JVal.num (sg ++ ip ++ fp.1 ++ ep.1), ep.2)

/-- Scan a JSON number token (after `NaN`/`Infinity` have been tried). -/
def scanNum (s : Text) : Option (JVal × Text) :=
  match s with
  | [] => none
  | c :: r => if c = '-' then scanNumCore ['-'] r else scanNumCore [] (c :: r)

mutual

/-- One JSON value, not preceded by whitespace (callers skip whitespace),
mirroring the Python `json` scanner including its `NaN`/`Infinity` extras. -/
def parseVal (fuel : Nat) (s : Text) : Option (JVal × Text) :=
  match fuel with
  | 0 => none
  | f + 1 =>
    match s with
    | [] => none
    | c :: r =>
      if c = '"' then (scanStr (r.length + 1) r).map (fun p => (JVal.str p.1, p.2))
      else if c = '[' then (parseItems f (skipWs r)).map (fun p => (JVal.arr p.1, p.2))
      else if c = '\x7b' then (parseMembers f (skipWs r)).map (fun p => (JVal.obj p.1, p.2))
      else if (chars "null").isPrefixOf s then some (JVal.null, s.drop 4)
      else if (chars "true").isPrefixOf s then some (JVal.bool true, s.drop 4)
      else if (chars "false").isPrefixOf s then some (JVal.bool false, s.drop 5)
      else if (chars "NaN").isPrefixOf s then some (JVal.num (chars "NaN"), s.drop 3)
      else if (chars "Infinity").isPrefixOf s then some (JVal.num (chars "Infinity"), s.drop 8)
      else if (chars "-Infinity").isPrefixOf s then some (JVal.num (chars "-Infinity"), s.drop 9)
      else scanNum s

/-- Array contents after `[` and whitespace; the returned text follows `]`. -/
def parseItems (fuel : Nat) (s : Text) : Option (List JVal × Text) :=
  match fuel with
  | 0 => none
  | f + 1 =>
    match s with
    | [] => none
    | c :: r =>
      if c = ']' then some ([], r)
      else
        match parseVal f (c :: r) with
        | none => none
        | some (v, r1) =>
          match parseItemsTail f (skipWs r1) with
          | none => none
          | some (vs, r2) => some (v :: vs, r2)

/-- After an array element: `,` and another element, or the closing `]`. -/
def parseItemsTail (fuel : Nat) (s : Text) : Option (List JVal × Text) :=
  match fuel with
  | 0 => none
  | f + 1 =>
    match s with
    | [] => none
    | c :: r =>
      if c = ']' then some ([], r)
      else if c = ',' then
        match parseVal f (skipWs r) with
        | none => none
        | some (v, r2) =>
          match parseItemsTail f (skipWs r2) with
          | none => none
          | some (vs, r3) => some (v :: vs, r3)
      else none

/-- One `"key": value` pair. -/
def parsePair (fuel : Nat) (s : Text) : Option ((Text × JVal) × Text) :=
  match fuel with
  | 0 => none
  | f + 1 =>
    match s with
    | [] => none
    | c :: r =>
      if c = '"' then
        match scanStr (r.length + 1) r with
        | none => none
        | some (k, r1) =>
          match skipWs r1 with
          | [] => none
          | c2 :: r2 =>
            if c2 = ':' then
              match parseVal f (skipWs r2) with
              | none => none
              | some (v, r3) => some ((k, v), r3)
            else none
      else none

/-- Object contents after the opening brace and whitespace; the returned
text follows the closing brace. -/
def parseMembers (fuel : Nat) (s : Text) : Option (List (Text × JVal) × Text) :=
  match fuel with
  | 0 => none
  | f + 1 =>
    match s with
    | [] => none
    | c :: r =>
      if c = '\x7d' then some ([], r)
      else
        match parsePair f (c :: r) with
        | none => none
        | some (kv, r1) =>
          match parseMembersTail f (skipWs r1) with
          | none => none
          | some (kvs, r2) => some (kv :: kvs, r2)

/-- After an object member: `,` and another member, or the closing brace. -/
def parseMembersTail (fuel : Nat) (s : Text) : Option (List (Text × JVal) × Text) :=
  match fuel with
  | 0 => none
  | f + 1 =>
    match s with
    | [] => none
    | c :: r =>
      if c = '\x7d' then some ([], r)
      else if c = ',' then
        match parsePair f (skipWs r) with
        | none => none
        | some (kv, r2) =>
          match parseMembersTail f (skipWs r2) with
          | none => none
          | some (kvs, r3) => some (kv :: kvs, r3)
      else none

end

/-- The embedding of `json.loads`: leading whitespace, one value, trailing whitespace, end of
input; `none` models the raised `JSONDecodeError`.  The fuel bounds the
nesting depth; two units per character is ample for any input. -/
def parseJson (s : Text) : Option JVal :=
  match parseVal (2 * s.length + 4) (skipWs s) with
  | some (v, r) => if skipWs r = [] then some v else none
  | none => none

/-- From `app.py` line 94: strip a leading literal seven-character fence marker.
The check is on the raw, untrimmed text. -/
def fenceDropPre (t : Text) : Text :=
  if (chars "```json").isPrefixOf t then t.drop 7 else t

/-- From `app.py` line 96: strip a trailing three-character fence marker. -/
def fenceDropSuf (t : Text) : Text :=
  if (chars "```").isSuffixOf t then t.take (t.length - 3) else t

/-- From `app.py` lines 94-98: the cleaning applied to the model's raw text
before `json.loads` — fence checks first, one `strip()` after. -/
def cleanResult (t : Text) : Text := strip (fenceDropSuf (fenceDropPre t))

/-- The response normalizer of `extract_invoice_data_with_gemini`
(`app.py` lines 92-100): clean, then parse; a parse failure is caught and
surfaces as `none` (the function's `return None`). -/
def normalizeResp (t : Text) : Option JVal := parseJson (cleanResult t)

/-- The exact fence wrapping named by the spec's idempotence property. -/
def wrapFence (j : Text) : Text :=
  chars "```json" ++ '\n' :: (j ++ '\n' :: chars "```")

/-- Claim C2's description of the normalizer: trim surrounding whitespace
BEFORE the fence checks.  Kept only to compare against `cleanResult`,
which is translated from the source. -/
def cleanResultClaim (t : Text) : Text :=
  strip (fenceDropSuf (fenceDropPre (strip t)))

/-- Claim C2's described normalizer, for comparison with `normalize`. -/
def normalizeRespClaim (t : Text) : Option JVal := parseJson (cleanResultClaim t)

/-! ### Where a successful parse can stop

`EndsOk s r` says the parser consumed a nonempty piece of `s`, leaving the
suffix `r`, and the last consumed character is not a backtick.  This is the
key structural fact behind the fence/JSON interaction claims: text accepted
by `json.loads` neither starts nor ends with a backtick. -/

def EndsOk (s r : Text) : Prop :=
  ∃ t c, s = t ++ c :: r ∧ c ≠ '\x60'

theorem endsOk_extend {m r : Text} (p : Text) (h : EndsOk m r) : EndsOk (p ++ m) r := by
  obtain ⟨t, c, hm, hc⟩ := h
  exact ⟨p ++ t, c, by rw [hm, List.append_assoc], hc⟩

theorem skipWs_decomp (s : Text) : s = s.takeWhile isJsonWs ++ skipWs s :=
  (List.takeWhile_append_dropWhile isJsonWs s).symm

theorem endsOk_cons_skip {c : Char} {cr r : Text} (h : EndsOk (skipWs cr) r) :
    EndsOk (c :: cr) r := by
  have hd := skipWs_decomp cr
  have : c :: cr = (c :: cr.takeWhile isJsonWs) ++ skipWs cr := by
    rw [List.cons_append, ← hd]
  rw [this]
  exact endsOk_extend _ h

theorem endsOk_chain {s r1 r2 : Text} (h1 : EndsOk s r1) (h2 : EndsOk (skipWs r1) r2) :
    EndsOk s r2 := by
  obtain ⟨t, c, hs, hc⟩ := h1
  rw [hs]
  exact endsOk_extend t (endsOk_cons_skip h2)

theorem endsOk_of_all {tok : Text} (r : Text) (hne : tok ≠ [])
    (hall : ∀ x ∈ tok, x ≠ '\x60') : EndsOk (tok ++ r) r := by
  refine ⟨tok.dropLast, tok.getLast hne, ?_, hall _ (List.getLast_mem hne)⟩
  rw [show tok.dropLast ++ tok.getLast hne :: r = (tok.dropLast ++ [tok.getLast hne]) ++ r by
        simp]
  rw [List.dropLast_append_getLast hne]

theorem endsOk_lit {p s : Text} (hne : p ≠ []) (hall : ∀ x ∈ p, x ≠ '\x60')
    (h : p.isPrefixOf s = true) : EndsOk s (s.drop p.length) := by
  obtain ⟨u, hu⟩ := List.isPrefixOf_iff_prefix.mp h
  have hdrop : s.drop p.length = u := by rw [← hu]; exact List.drop_left p u
  rw [hdrop, ← hu]
  exact endsOk_of_all u hne hall


theorem digit_ne_tick {x : Char} (h : x.isDigit = true) : x ≠ '\x60' := by
  intro he
  subst he
  simp [Char.isDigit] at h

theorem scanIntPart_decomp {s ip s2 : Text} (h : scanIntPart s = some (ip, s2)) :
    s = ip ++ s2 ∧ ip ≠ [] ∧ ∀ x ∈ ip, x ≠ '\x60' := by
  match s with
  | [] => simp [scanIntPart] at h
  | c :: r =>
    simp only [scanIntPart] at h
    split at h
    · rename_i h0
      obtain ⟨rfl, rfl⟩ := Prod.mk.injEq .. ▸ Option.some.inj h
      subst h0
      exact ⟨rfl, by simp, by intro x hx; simp at hx; subst hx; decide⟩
    · split at h
      · rename_i h0 hd
        obtain ⟨rfl, rfl⟩ := Prod.mk.injEq .. ▸ Option.some.inj h
        refine ⟨?_, by simp, ?_⟩
        · rw [List.cons_append, List.takeWhile_append_dropWhile]
        · intro x hx
          rcases List.mem_cons.mp hx with hx | hx
          · subst hx; exact digit_ne_tick hd
          · exact digit_ne_tick (List.mem_takeWhile_imp hx)
      · exact absurd h (by simp)

theorem scanFracPart_decomp {s fp rest : Text} (h : scanFracPart s = (fp, rest)) :
    s = fp ++ rest ∧ ∀ x ∈ fp, x ≠ '\x60' := by
  match s with
  | [] =>
    simp only [scanFracPart] at h
    obtain ⟨rfl, rfl⟩ := Prod.mk.injEq .. ▸ h
    exact ⟨rfl, by simp⟩
  | c :: r =>
    simp only [scanFracPart] at h
    split at h
    · rename_i hdot
      split at h
      · obtain ⟨rfl, rfl⟩ := Prod.mk.injEq .. ▸ h
        exact ⟨rfl, by simp⟩
      · obtain ⟨rfl, rfl⟩ := Prod.mk.injEq .. ▸ h
        subst hdot
        refine ⟨?_, ?_⟩
        · rw [List.cons_append, List.takeWhile_append_dropWhile]
        · intro x hx
          rcases List.mem_cons.mp hx with hx | hx
          · subst hx; decide
          · exact digit_ne_tick (List.mem_takeWhile_imp hx)
    · obtain ⟨rfl, rfl⟩ := Prod.mk.injEq .. ▸ h
      exact ⟨rfl, by simp⟩

theorem scanExpPart_decomp {s ep rest : Text} (h : scanExpPart s = (ep, rest)) :
    s = ep ++ rest ∧ ∀ x ∈ ep, x ≠ '\x60' := by
  match s with
  | [] =>
    simp only [scanExpPart] at h
    obtain ⟨rfl, rfl⟩ := Prod.mk.injEq .. ▸ h
    exact ⟨rfl, by simp⟩
  | c :: r =>
    simp only [scanExpPart] at h
    split at h
    · rename_i hce
      match r with
      | [] =>
        simp only at h
        obtain ⟨rfl, rfl⟩ := Prod.mk.injEq .. ▸ h
        exact ⟨rfl, by simp⟩
      | k :: r2 =>
        simp only at h
        split at h
        · rename_i hk
          split at h
          · obtain ⟨rfl, rfl⟩ := Prod.mk.injEq .. ▸ h
            exact ⟨rfl, by simp⟩
          · obtain ⟨rfl, rfl⟩ := Prod.mk.injEq .. ▸ h
            refine ⟨?_, ?_⟩
            · rw [List.cons_append, List.cons_append, List.takeWhile_append_dropWhile]
            · intro x hx
              rcases List.mem_cons.mp hx with hx | hx
              · subst hx; rcases hce with hq | hq <;> (subst hq; decide)
              · rcases List.mem_cons.mp hx with hx | hx
                · subst hx; rcases hk with hq | hq <;> (subst hq; decide)
                · exact digit_ne_tick (List.mem_takeWhile_imp hx)
        · split at h
          · obtain ⟨rfl, rfl⟩ := Prod.mk.injEq .. ▸ h
            exact ⟨rfl, by simp⟩
          · obtain ⟨rfl, rfl⟩ := Prod.mk.injEq .. ▸ h
            refine ⟨?_, ?_⟩
            · rw [List.cons_append, List.takeWhile_append_dropWhile]
            · intro x hx
              rcases List.mem_cons.mp hx with hx | hx
              · subst hx; rcases hce with hq | hq <;> (subst hq; decide)
              · exact digit_ne_tick (List.mem_takeWhile_imp hx)
    · obtain ⟨rfl, rfl⟩ := Prod.mk.injEq .. ▸ h
      exact ⟨rfl, by simp⟩

theorem scanNumCore_endsOk {sg t : Text} {v : JVal} {r : Text}
    (hsg : ∀ x ∈ sg, x ≠ '\x60') (h : scanNumCore sg t = some (v, r)) :
    EndsOk (sg ++ t) r := by
  simp only [scanNumCore] at h
  split at h
  · exact absurd h (by simp)
  · rename_i ip s2 hip
    rcases hsf : scanFracPart s2 with ⟨fp1, fp2⟩
    rcases hse : scanExpPart fp2 with ⟨ep1, ep2⟩
    rw [hsf] at h
    simp only [hse] at h
    obtain ⟨hv, hr⟩ := Prod.mk.injEq .. ▸ Option.some.inj h
    obtain ⟨ht, hipne, hipall⟩ := scanIntPart_decomp hip
    obtain ⟨hfp, hfpall⟩ := scanFracPart_decomp hsf
    obtain ⟨hep, hepall⟩ := scanExpPart_decomp hse
    have htok : sg ++ t = (sg ++ ip ++ fp1 ++ ep1) ++ r := by
      rw [ht, hfp, hep, ← hr]
      simp [List.append_assoc]
    rw [htok]
    apply endsOk_of_all
    · intro hemp
      rw [List.append_eq_nil, List.append_eq_nil, List.append_eq_nil] at hemp
      exact hipne hemp.1.1.2
    · intro x hx
      simp only [List.mem_append] at hx
      rcases hx with ((hx | hx) | hx) | hx
      · exact hsg x hx
      · exact hipall x hx
      · exact hfpall x hx
      · exact hepall x hx

theorem scanNum_endsOk {s : Text} {v : JVal} {r : Text} (h : scanNum s = some (v, r)) :
    EndsOk s r := by
  match s with
  | [] => simp [scanNum] at h
  | c :: cr =>
    simp only [scanNum] at h
    split at h
    · rename_i hc
      subst hc
      exact scanNumCore_endsOk (by intro x hx; simp at hx; subst hx; decide) h
    · have := scanNumCore_endsOk (by simp) h
      simpa using this

theorem scanStr_endsOk : ∀ f s cs r, scanStr f s = some (cs, r) → EndsOk s r := by
  intro f
  induction f with
  | zero => intro s cs r h; simp [scanStr] at h
  | succ f ih =>
    intro s cs r h
    match s with
    | [] => simp [scanStr] at h
    | c :: cr =>
      simp only [scanStr] at h
      split at h
      · rename_i h1
        obtain ⟨rfl, rfl⟩ := Prod.mk.injEq .. ▸ Option.some.inj h
        subst h1
        exact ⟨[], '"', rfl, by decide⟩
      · rename_i h1
        split at h
        · rename_i h2
          split at h
          · exact absurd h (by simp)
          · rename_i e r2
            split at h
            · rename_i h3
              split at h
              · rename_i a b d1 d2 r3
                split at h
                · rename_i n hh
                  obtain ⟨⟨cs', r'⟩, hsc, hmap⟩ := Option.map_eq_some'.mp h
                  have hr : r' = r := congrArg Prod.snd hmap
                  subst h2 h3
                  rw [← hr]
                  exact endsOk_extend ['\\', 'u', a, b, d1, d2] (ih r3 cs' r' hsc)
                · exact absurd h (by simp)
              · exact absurd h (by simp)
            · rename_i h3
              split at h
              · rename_i c2 hh
                obtain ⟨⟨cs', r'⟩, hsc, hmap⟩ := Option.map_eq_some'.mp h
                have hr : r' = r := congrArg Prod.snd hmap
                subst h2
                rw [← hr]
                exact endsOk_extend ['\\', _] (ih r2 cs' r' hsc)
              · exact absurd h (by simp)
        · rename_i h2
          split at h
          · exact absurd h (by simp)
          · obtain ⟨⟨cs', r'⟩, hsc, hmap⟩ := Option.map_eq_some'.mp h
            have hr : r' = r := congrArg Prod.snd hmap
            rw [← hr]
            exact endsOk_extend [c] (ih cr cs' r' hsc)

theorem parse_endsOk : ∀ f,
    (∀ s v r, parseVal f s = some (v, r) → EndsOk s r) ∧
    (∀ s kv r, parsePair f s = some (kv, r) → EndsOk s r) ∧
    (∀ s xs r, parseItems f s = some (xs, r) → EndsOk s r) ∧
    (∀ s xs r, parseItemsTail f s = some (xs, r) → EndsOk s r) ∧
    (∀ s ms r, parseMembers f s = some (ms, r) → EndsOk s r) ∧
    (∀ s ms r, parseMembersTail f s = some (ms, r) → EndsOk s r) := by
  intro f
  induction f with
  | zero =>
    refine ⟨?_, ?_, ?_, ?_, ?_, ?_⟩ <;>
      (intro s x r h; simp [parseVal, parsePair, parseItems, parseItemsTail,
        parseMembers, parseMembersTail] at h)
  | succ f ih =>
    obtain ⟨ihV, ihP, ihI, ihIT, ihM, ihMT⟩ := ih
    refine ⟨?_, ?_, ?_, ?_, ?_, ?_⟩
    · -- parseVal
      intro s v r h
      match s with
      | [] => simp [parseVal] at h
      | c :: cr =>
        simp only [parseVal] at h
        split at h
        · -- string
          rename_i h1
          obtain ⟨⟨cs', r'⟩, hsc, hmap⟩ := Option.map_eq_some'.mp h
          have hr : r' = r := congrArg Prod.snd hmap
          subst h1
          rw [← hr]
          exact endsOk_extend ['"'] (scanStr_endsOk _ _ _ _ hsc)
        · split at h
          · -- array
            rename_i h1 h2
            obtain ⟨⟨xs, r'⟩, hpi, hmap⟩ := Option.map_eq_some'.mp h
            have hr : r' = r := congrArg Prod.snd hmap
            subst h2
            rw [← hr]
            exact endsOk_cons_skip (ihI _ _ _ hpi)
          · split at h
            · -- object
              rename_i h1 h2 h3
              obtain ⟨⟨ms, r'⟩, hpm, hmap⟩ := Option.map_eq_some'.mp h
              have hr : r' = r := congrArg Prod.snd hmap
              subst h3
              rw [← hr]
              exact endsOk_cons_skip (ihM _ _ _ hpm)
            · split at h
              · rename_i hpre
                have hr : r = (c :: cr).drop 4 := (congrArg Prod.snd (Option.some.inj h)).symm
                rw [hr]
                exact endsOk_lit (by decide) (by decide) hpre
              · split at h
                · rename_i hpre
                  have hr : r = (c :: cr).drop 4 := (congrArg Prod.snd (Option.some.inj h)).symm
                  rw [hr]
                  exact endsOk_lit (by decide) (by decide) hpre
                · split at h
                  · rename_i hpre
                    have hr : r = (c :: cr).drop 5 := (congrArg Prod.snd (Option.some.inj h)).symm
                    rw [hr]
                    exact endsOk_lit (by decide) (by decide) hpre
                  · split at h
                    · rename_i hpre
                      have hr : r = (c :: cr).drop 3 := (congrArg Prod.snd (Option.some.inj h)).symm
                      rw [hr]
                      exact endsOk_lit (by decide) (by decide) hpre
                    · split at h
                      · rename_i hpre
                        have hr : r = (c :: cr).drop 8 := (congrArg Prod.snd (Option.some.inj h)).symm
                        rw [hr]
                        exact endsOk_lit (by decide) (by decide) hpre
                      · split at h
                        · rename_i hpre
                          have hr : r = (c :: cr).drop 9 := (congrArg Prod.snd (Option.some.inj h)).symm
                          rw [hr]
                          exact endsOk_lit (by decide) (by decide) hpre
                        · exact scanNum_endsOk h
    · -- parsePair
      intro s kv r h
      match s with
      | [] => simp [parsePair] at h
      | c :: cr =>
        simp only [parsePair] at h
        split at h
        · rename_i h1
          subst h1
          split at h
          · exact absurd h (by simp)
          · rename_i k r1 hsk
            split at h
            · exact absurd h (by simp)
            · rename_i c2 r2 hsw
              split at h
              · rename_i h2
                subst h2
                split at h
                · exact absurd h (by simp)
                · rename_i v r3 hpv
                  have hr : r3 = r := congrArg Prod.snd (Option.some.inj h)
                  rw [← hr]
                  have hE3 : EndsOk (skipWs r1) r3 := by
                    rw [hsw]
                    exact endsOk_cons_skip (ihV _ _ _ hpv)
                  exact endsOk_extend ['"'] (endsOk_chain (scanStr_endsOk _ _ _ _ hsk) hE3)
              · exact absurd h (by simp)
        · exact absurd h (by simp)
    · -- parseItems
      intro s xs r h
      match s with
      | [] => simp [parseItems] at h
      | c :: cr =>
        simp only [parseItems] at h
        split at h
        · rename_i h1
          obtain ⟨rfl, rfl⟩ := Prod.mk.injEq .. ▸ Option.some.inj h
          subst h1
          exact ⟨[], ']', rfl, by decide⟩
        · split at h
          · exact absurd h (by simp)
          · rename_i v r1 hpv
            split at h
            · exact absurd h (by simp)
            · rename_i vs r2 hpt
              have hr : r2 = r := congrArg Prod.snd (Option.some.inj h)
              rw [← hr]
              exact endsOk_chain (ihV _ _ _ hpv) (ihIT _ _ _ hpt)
    · -- parseItemsTail
      intro s xs r h
      match s with
      | [] => simp [parseItemsTail] at h
      | c :: cr =>
        simp only [parseItemsTail] at h
        split at h
        · rename_i h1
          obtain ⟨rfl, rfl⟩ := Prod.mk.injEq .. ▸ Option.some.inj h
          subst h1
          exact ⟨[], ']', rfl, by decide⟩
        · split at h
          · rename_i h1 h2
            split at h
            · exact absurd h (by simp)
            · rename_i v r2 hpv
              split at h
              · exact absurd h (by simp)
              · rename_i vs r3 hpt
                have hr : r3 = r := congrArg Prod.snd (Option.some.inj h)
                rw [← hr]
                exact endsOk_cons_skip (endsOk_chain (ihV _ _ _ hpv) (ihIT _ _ _ hpt))
          · exact absurd h (by simp)
    · -- parseMembers
      intro s ms r h
      match s with
      | [] => simp [parseMembers] at h
      | c :: cr =>
        simp only [parseMembers] at h
        split at h
        · rename_i h1
          obtain ⟨rfl, rfl⟩ := Prod.mk.injEq .. ▸ Option.some.inj h
          subst h1
          exact ⟨[], '\x7d', rfl, by decide⟩
        · split at h
          · exact absurd h (by simp)
          · rename_i kv r1 hpp
            split at h
            · exact absurd h (by simp)
            · rename_i kvs r2 hpt
              have hr : r2 = r := congrArg Prod.snd (Option.some.inj h)
              rw [← hr]
              exact endsOk_chain (ihP _ _ _ hpp) (ihMT _ _ _ hpt)
    · -- parseMembersTail
      intro s ms r h
      match s with
      | [] => simp [parseMembersTail] at h
      | c :: cr =>
        simp only [parseMembersTail] at h
        split at h
        · rename_i h1
          obtain ⟨rfl, rfl⟩ := Prod.mk.injEq .. ▸ Option.some.inj h
          subst h1
          exact ⟨[], '\x7d', rfl, by decide⟩
        · split at h
          · rename_i h1 h2
            split at h
            · exact absurd h (by simp)
            · rename_i kv r2 hpp
              split at h
              · exact absurd h (by simp)
              · rename_i kvs r3 hpt
                have hr : r3 = r := congrArg Prod.snd (Option.some.inj h)
                rw [← hr]
                exact endsOk_cons_skip (endsOk_chain (ihP _ _ _ hpp) (ihMT _ _ _ hpt))
          · exact absurd h (by simp)

/-- Text accepted by `json.loads` does not end with a backtick. -/
theorem parseJson_getLast_ne {s : Text} {v : JVal} (h : parseJson s = some v) :
    s.getLast? ≠ some '\x60' := by
  simp only [parseJson] at h
  split at h
  case h_2 => exact absurd h (by simp)
  case h_1 p v' r hpv =>
    split at h
    case isFalse => exact absurd h (by simp)
    case isTrue hws =>
      obtain ⟨t, c, hdec, hc⟩ := (parse_endsOk _).1 _ _ _ hpv
      have hs : s = s.takeWhile isJsonWs ++ (t ++ c :: r) := by
        rw [← hdec]; exact skipWs_decomp s
      cases r with
      | nil =>
        rw [hs]
        rw [show s.takeWhile isJsonWs ++ (t ++ c :: ([] : Text)) =
              (s.takeWhile isJsonWs ++ t) ++ [c] by simp]
        rw [List.getLast?_concat]
        intro hcon
        exact hc (Option.some.inj hcon)
      | cons x r' =>
        have hrne : (x :: r') ≠ ([] : Text) := by simp
        have hall : ∀ y ∈ x :: r', isJsonWs y = true :=
          List.dropWhile_eq_nil_iff.mp (by simpa [skipWs] using hws)
        rw [hs]
        rw [show s.takeWhile isJsonWs ++ (t ++ c :: x :: r') =
              (s.takeWhile isJsonWs ++ t ++ [c]) ++ (x :: r') by simp]
        rw [List.getLast?_append_of_ne_nil _ hrne]
        rw [List.getLast?_eq_getLast _ hrne]
        intro hcon
        have hws' := hall _ (List.getLast_mem hrne)
        rw [Option.some.inj hcon] at hws'
        simp [isJsonWs] at hws'

/-- The reader `parseVal` fails outright on text whose first character is a backtick. -/
theorem parseVal_tick (f : Nat) (t : Text) : parseVal f ('\x60' :: t) = none := by
  match f with
  | 0 => rw [parseVal]
  | f + 1 =>
    rw [parseVal]
    have h1 : ¬ ('\x60' : Char) = '"' := by decide
    have h2 : ¬ ('\x60' : Char) = '[' := by decide
    have h3 : ¬ ('\x60' : Char) = '\x7b' := by decide
    rw [if_neg h1, if_neg h2, if_neg h3]
    have hp : ∀ (a : Char) (as : Text),
        (a :: as).isPrefixOf ('\x60' :: t) = (a == '\x60' && as.isPrefixOf t) := by
      intro a as; rfl
    rw [show chars "null" = 'n' :: chars "ull" from rfl, hp]
    rw [show chars "true" = 't' :: chars "rue" from rfl, hp]
    rw [show chars "false" = 'f' :: chars "alse" from rfl, hp]
    rw [show chars "NaN" = 'N' :: chars "aN" from rfl, hp]
    rw [show chars "Infinity" = 'I' :: chars "nfinity" from rfl, hp]
    rw [show chars "-Infinity" = '-' :: chars "Infinity" from rfl, hp]
    simp only [show ('n' == '\x60') = false from rfl, show ('t' == '\x60') = false from rfl,
      show ('f' == '\x60') = false from rfl, show ('N' == '\x60') = false from rfl,
      show ('I' == '\x60') = false from rfl, show ('-' == '\x60') = false from rfl,
      Bool.false_and, Bool.false_eq_true, if_false]
    simp [scanNum, scanNumCore, scanIntPart]

/-- Text accepted by `json.loads` does not start with a backtick. -/
theorem parseJson_head_ne {s : Text} {v : JVal} (h : parseJson s = some v) :
    s.head? ≠ some '\x60' := by
  intro hcon
  match s with
  | [] => simp at hcon
  | c :: t =>
    have hc : c = '\x60' := Option.some.inj hcon
    subst hc
    simp only [parseJson] at h
    rw [show skipWs ('\x60' :: t) = '\x60' :: t from by
          simp [skipWs, List.dropWhile_cons, isJsonWs]] at h
    rw [parseVal_tick] at h
    simp at h

theorem strip_cons_space {c : Char} (h : isSpace c = true) (j : Text) :
    strip (c :: j) = strip j := by
  simp [strip, stripL, List.dropWhile_cons, h]

theorem stripR_append_space {c : Char} (h : isSpace c = true) (j : Text) :
    stripR (j ++ [c]) = stripR j := by
  simp [stripR, List.dropWhile_cons, h]

theorem strip_append_space {c : Char} (h : isSpace c = true) (j : Text) :
    strip (j ++ [c]) = strip j := by
  by_cases hL : stripL j = []
  · have hall : ∀ x ∈ j, isSpace x = true := List.dropWhile_eq_nil_iff.mp hL
    have hL2 : stripL (j ++ [c]) = [] := by
      apply List.dropWhile_eq_nil_iff.mpr
      intro x hx
      rcases List.mem_append.mp hx with hx | hx
      · exact hall x hx
      · simp at hx; subst hx; exact h
    simp [strip, hL, hL2, stripR]
  · have hsplit : stripL (j ++ [c]) = stripL j ++ [c] := by
      have hE : (List.dropWhile isSpace j).isEmpty = false := by
        rcases hEE : (List.dropWhile isSpace j).isEmpty with _ | _
        · rfl
        · exact absurd (List.isEmpty_iff.mp hEE) hL
      rw [stripL, List.dropWhile_append]
      simp only [hE, Bool.false_eq_true, if_false]
      rfl
    rw [strip, hsplit, stripR_append_space h, ← strip]

/-- C3: for every valid JSON object text `j` (text that `json.loads` accepts
as an object), the normalizer gives the same result on `j` and on `j`
wrapped in the exact fence `` ```json `` + newline + `j` + newline + `` ``` ``. -/
theorem c3_normalize_fence_wrap_same (j : Text) (kvs : List (Text × JVal))
    (h : parseJson j = some (JVal.obj kvs)) :
    normalizeResp j = normalizeResp (wrapFence j) := by
  have hpre : (chars "```json").isPrefixOf j = false := by
    rcases hb : (chars "```json").isPrefixOf j with _ | _
    · rfl
    · obtain ⟨u, hu⟩ := List.isPrefixOf_iff_prefix.mp hb
      exfalso
      apply parseJson_head_ne h
      rw [← hu]
      rfl
  have hsuf : (chars "```").isSuffixOf j = false := by
    rcases hb : (chars "```").isSuffixOf j with _ | _
    · rfl
    · obtain ⟨u, hu⟩ := List.isSuffixOf_iff_suffix.mp hb
      exfalso
      apply parseJson_getLast_ne h
      rw [← hu]
      rw [List.getLast?_append_of_ne_nil _ (by decide : chars "```" ≠ [])]
      rfl
  have hL : normalizeResp j = parseJson (strip j) := by
    rw [normalizeResp, cleanResult, fenceDropPre, hpre]
    rw [if_neg (by simp)]
    rw [fenceDropSuf, hsuf]
    rw [if_neg (by simp)]
  have hpre2 : (chars "```json").isPrefixOf (wrapFence j) = true := by
    apply List.isPrefixOf_iff_prefix.mpr
    exact ⟨'\n' :: (j ++ '\n' :: chars "```"), rfl⟩
  have hdrop : (wrapFence j).drop 7 = '\n' :: (j ++ '\n' :: chars "```") := by
    rw [wrapFence]
    rw [show (7 : Nat) = (chars "```json").length from rfl]
    exact List.drop_left _ _
  have hsuf2 : (chars "```").isSuffixOf ('\n' :: (j ++ '\n' :: chars "```")) = true := by
    apply List.isSuffixOf_iff_suffix.mpr
    exact ⟨'\n' :: (j ++ ['\n']), by simp⟩
  have htake : ('\n' :: (j ++ '\n' :: chars "```")).take
      (('\n' :: (j ++ '\n' :: chars "```")).length - 3) = '\n' :: (j ++ ['\n']) := by
    have hX : '\n' :: (j ++ '\n' :: chars "```") = ('\n' :: (j ++ ['\n'])) ++ chars "```" := by
      simp
    rw [hX, List.length_append]
    rw [show (chars "```").length = 3 from rfl]
    rw [Nat.add_sub_cancel]
    exact List.take_left _ _
  have hR : normalizeResp (wrapFence j) = parseJson (strip ('\n' :: (j ++ ['\n']))) := by
    rw [normalizeResp, cleanResult, fenceDropPre, hpre2]
    rw [if_pos rfl]
    rw [hdrop, fenceDropSuf, hsuf2]
    rw [if_pos rfl]
    rw [htake]
  have hstrip : strip ('\n' :: (j ++ ['\n'])) = strip j := by
    rw [strip_cons_space (by decide), strip_append_space (by decide)]
  rw [hL, hR, hstrip]

/-- Witness for C3 at a concrete JSON object text. -/
theorem c3_witness :
    parseJson (chars "\x7b\"a\": 1\x7d") = some (JVal.obj [(chars "a", JVal.num ['1'])]) ∧
    normalizeResp (chars "\x7b\"a\": 1\x7d") =
      normalizeResp (wrapFence (chars "\x7b\"a\": 1\x7d")) :=
  ⟨rfl, c3_normalize_fence_wrap_same _ _ rfl⟩

/-- C2 as stated is false: there is no initial trim before the prefix check,
so a single leading space defeats the fence stripping and the input fails
to parse, while the claim's trim-first normalizer accepts it. -/
theorem c2_counterexample :
    normalizeResp (chars " ```json\n\x7b\x7d\n```") = none ∧
    normalizeRespClaim (chars " ```json\n\x7b\x7d\n```") = some (JVal.obj []) :=
  ⟨rfl, rfl⟩

/-- C2 (amended): the normalizer applies, in order: the literal seven-character
`` ```json `` prefix check on the RAW (untrimmed) text, then the trailing
`` ``` `` suffix check, then one whitespace trim, then the JSON parse.
Leading whitespace before the fence marker prevents prefix stripping. -/
theorem c2_step_order :
    (∀ t, normalizeResp t = parseJson (strip (fenceDropSuf (fenceDropPre t)))) ∧
    (∀ (c : Char) (t : Text), isSpace c = true → fenceDropPre (c :: t) = c :: t) ∧
    (∀ t, (chars "```json").isPrefixOf t = true → fenceDropPre t = t.drop 7) ∧
    (∀ t, (chars "```").isSuffixOf t = true → fenceDropSuf t = t.take (t.length - 3)) := by
  refine ⟨fun t => rfl, ?_, ?_, ?_⟩
  · intro c t hc
    rw [fenceDropPre]
    rw [if_neg ?_]
    intro hb
    obtain ⟨u, hu⟩ := List.isPrefixOf_iff_prefix.mp hb
    have hc0 : c = '\x60' := by
      have h2 := hu
      rw [show chars "```json" ++ u = '\x60' :: (chars "``json" ++ u) from rfl] at h2
      exact ((List.cons.inj h2).1).symm
    subst hc0
    exact absurd hc (by decide)
  · intro t hb
    rw [fenceDropPre, if_pos hb]
  · intro t hb
    rw [fenceDropSuf, if_pos hb]

/-- Witness for C2's amended statement at concrete inputs. -/
theorem c2_witness :
    isSpace ' ' = true ∧ fenceDropPre (' ' :: chars "```json") = ' ' :: chars "```json" ∧
    (chars "```json").isPrefixOf (chars "```json x") = true ∧
    fenceDropPre (chars "```json x") = (chars "```json x").drop 7 :=
  ⟨by decide, c2_step_order.2.1 ' ' _ (by decide), by decide,
    c2_step_order.2.2.1 _ (by decide)⟩

/-- C4 as stated is false: a top-level JSON array is not rejected; the code
has no object check, so the parsed array is returned as a success value. -/
theorem c4_counterexample :
    normalizeResp (chars "[1, 2]") = some (JVal.arr [JVal.num ['1'], JVal.num ['2']]) ∧
    (normalizeResp (chars "[1, 2]")).isSome = true :=
  ⟨rfl, rfl⟩

/-- C4 (amended): the normalizer returns the error value exactly when the
fence-stripped, trimmed remainder fails to parse as JSON (`json.loads`
raising, caught and converted to the error return); a syntactically valid
top-level value of ANY type, object or not, is returned as a success.  The
embedding is total, so no unhandled exception escapes. -/
theorem c4_error_iff_parse_failure :
    (∀ t, normalizeResp t = none ↔ parseJson (cleanResult t) = none) ∧
    normalizeResp (chars "not json") = none ∧
    (∀ t v, parseJson (cleanResult t) = some v → normalizeResp t = some v) :=
  ⟨fun _ => Iff.rfl, rfl, fun _ _ h => h⟩

/-- Witness for C4's amended statement at concrete inputs. -/
theorem c4_witness :
    parseJson (cleanResult (chars "[3]")) = some (JVal.arr [JVal.num ['3']]) ∧
    normalizeResp (chars "[3]") = some (JVal.arr [JVal.num ['3']]) ∧
    (normalizeResp (chars "\x7b") = none ↔ parseJson (cleanResult (chars "\x7b")) = none) :=
  ⟨rfl, c4_error_iff_parse_failure.2.2 _ _ rfl, (c4_error_iff_parse_failure.1 _)⟩

/-- C10: the two fence checks are independent: a trailing `` ``` `` is
stripped even without the `` ```json `` opening, the opening is stripped
even without a closing fence, and only after both checks and the trim is
the JSON parse attempted. -/
theorem c10_fence_checks_independent :
    (∀ t, (chars "```json").isPrefixOf t = false → (chars "```").isSuffixOf t = true →
      cleanResult t = strip (t.take (t.length - 3))) ∧
    (∀ t, (chars "```json").isPrefixOf t = true →
      (chars "```").isSuffixOf (t.drop 7) = false →
      cleanResult t = strip (t.drop 7)) ∧
    (∀ t, normalizeResp t = parseJson (cleanResult t)) := by
  refine ⟨?_, ?_, fun t => rfl⟩
  · intro t h1 h2
    rw [cleanResult, fenceDropPre, h1]
    rw [if_neg (by simp)]
    rw [fenceDropSuf, h2, if_pos rfl]
  · intro t h1 h2
    rw [cleanResult, fenceDropPre, h1, if_pos rfl]
    rw [fenceDropSuf, h2]
    rw [if_neg (by simp)]

/-- Witness for C10 at concrete inputs exercising both directions. -/
theorem c10_witness :
    cleanResult (chars "x```") = strip ((chars "x```").take ((chars "x```").length - 3)) ∧
    cleanResult (chars "```json x") = strip ((chars "```json x").drop 7) :=
  ⟨c10_fence_checks_independent.1 _ (by decide) (by decide),
    c10_fence_checks_independent.2.1 _ (by decide) (by decide)⟩

/-!
### Image intake (`save_uploaded_images`, `app.py` lines 48-57)

`os.makedirs(..., exist_ok=True)` is the `dirMade` flag; each
`open(path, "wb").write(...)` appends to a write log (last write wins for
a repeated path, as on a filesystem).
-/

structure UploadedFile where
  name : Text
  content : List Nat

structure FileStore where
  dirMade : Bool
  files : List (Text × List Nat)

/-- The storage area, `"uploaded_images"`. -/
def uploadDir : Text := chars "uploaded_images"

/-- Python `os.path.join("uploaded_images", file.name)` on a POSIX path. -/
def filePathOf (f : UploadedFile) : Text := uploadDir ++ '/' :: f.name

/-- The intake `save_uploaded_images`: make the directory, write each image under its
original name, collect the paths in input order. -/
def save_uploaded_images (ufiles : List UploadedFile) (fs : FileStore) :
    List Text × FileStore :=
  ufiles.foldl
    (fun acc file =>
      (acc.1 ++ [filePathOf file],
        ⟨acc.2.dirMade, acc.2.files ++ [(filePathOf file, file.content)]⟩))
    ([], ⟨true, fs.files⟩)

/-!
### The persisted schema and the store (`app.py` lines 24-45, 105-148)

Column values hold whatever Python object `dict.get` produced, so fields
are `JVal` with `JVal.null` standing for SQL NULL / Python `None`.
`created_at` is an abstract timestamp (`datetime.utcnow()` passed in by
the caller as `now`); ids model SQLite's assignment of consecutive
integer primary keys.
-/

structure HeaderRow where
  id : Nat
  supplier : JVal
  invoice_date : JVal
  total_amount : JVal
  tax : JVal
  image_paths : Text
  created_at : Nat

structure LineRow where
  id : Nat
  header_id : Nat
  description : JVal
  quantity : JVal
  unit_price : JVal
  amount : JVal

/-- The two tables plus the next free primary keys. -/
structure DB where
  headers : List HeaderRow
  items : List LineRow
  nextHeaderId : Nat
  nextItemId : Nat

/-- Python `key in dict`. -/
def hasKey (kvs : List (Text × JVal)) (k : Text) : Bool :=
  kvs.any (fun p => p.1 == k)

/-- Python `dict.get(key)` with default `None`; on duplicate keys
`json.loads` keeps the last binding, hence the reverse search. -/
def dGet (kvs : List (Text × JVal)) (k : Text) : JVal :=
  match kvs.reverse.find? (fun p => p.1 == k) with
  | some p => p.2
  | none => JVal.null

/-- Python `",".join(paths)` (`app.py` line 114). -/
def joinComma (ps : List Text) : Text := List.intercalate [','] ps

/-- Python `s.split(",")` (`app.py` line 253). -/
def splitComma (s : Text) : List Text := s.splitOn ','

/-- Python `extracted_data.get("line_items", [])`: the default applies only when
the key is absent; a present `null` (Python `None`) is returned as is. -/
def lineItemsVal (kvs : List (Text × JVal)) : JVal :=
  if hasKey kvs (chars "line_items") then dGet kvs (chars "line_items") else JVal.arr []

/-- The `InvoiceHeader(...)` constructed in `save_invoice_to_db`. -/
def headerRowOf (hid now : Nat) (kvs : List (Text × JVal)) (ipaths : List Text) :
    HeaderRow :=
  { id := hid
    supplier := dGet kvs (chars "supplier")
    invoice_date := dGet kvs (chars "invoice_date")
    total_amount := dGet kvs (chars "total_amount")
    tax := dGet kvs (chars "tax")
    image_paths := joinComma ipaths
    created_at := now }

/-- The `InvoiceLineItem(...)` constructed for each entry. -/
def lineRowOf (lid hid : Nat) (ikvs : List (Text × JVal)) : LineRow :=
  { id := lid
    header_id := hid
    description := dGet ikvs (chars "description")
    quantity := dGet ikvs (chars "quantity")
    unit_price := dGet ikvs (chars "unit_price")
    amount := dGet ikvs (chars "amount") }

/-- The loop `for item in extracted_data.get("line_items", []): session.add(...)`.
`failAt = some stepNo` injects an exception at that session step; an entry
that is not a dict raises (`item.get` on a non-dict).  `none` means the
whole loop raised and the `except` branch runs. -/
def addLines (failAt : Option Nat) (stepNo hid lid : Nat) :
    List JVal → Option (List LineRow)
  | [] => some []
  | item :: rest =>
    if failAt = some stepNo then none
    else
      match item with
      | JVal.obj ikvs =>
        match addLines failAt (stepNo + 1) hid (lid + 1) rest with
        | some rows => some (lineRowOf lid hid ikvs :: rows)
        | none => none
      | _ => none

/-- The store write `save_invoice_to_db` (`app.py` lines 105-136).  The session buffers the
new rows; only `session.commit()` publishes them into `db`.  Step 0 is the
header `add`/`flush`, steps `1..n` are the line-item `add`s, step `n + 1`
is the commit; an exception at any step (injected via `failAt`, or a
shape error such as non-dict data or a non-list `line_items`) runs the
`except` branch: `session.rollback()`, return `None`, database unchanged. -/
def save_invoice_to_db (failAt : Option Nat) (now : Nat) (data : JVal)
    (ipaths : List Text) (db : DB) : Option Nat × DB :=
  match data with
  | JVal.obj kvs =>
    if failAt = some 0 then (none, db)
    else
      match lineItemsVal kvs with
      | JVal.arr items =>
        match addLines failAt 1 db.nextHeaderId db.nextItemId items with
        | some rows =>
          if failAt = some (items.length + 1) then (none, db)
          else
            (some db.nextHeaderId,
              ⟨db.headers ++ [headerRowOf db.nextHeaderId now kvs ipaths],
                db.items ++ rows, db.nextHeaderId + 1, db.nextItemId + rows.length⟩)
        | none => (none, db)
      | _ => (none, db)
  | _ => (none, db)

/-- Stable insertion for `ORDER BY created_at DESC`: rows scanned in
insertion order, a row placed after every strictly newer row. -/
def insertDesc (x : HeaderRow) : List HeaderRow → List HeaderRow
  | [] => [x]
  | y :: ys => if x.created_at < y.created_at then y :: insertDesc x ys else x :: y :: ys

/-- Stable sort by `created_at` descending. -/
def sortByCreatedDesc : List HeaderRow → List HeaderRow
  | [] => []
  | x :: xs => insertDesc x (sortByCreatedDesc xs)

/-- The read `get_all_invoices` (`app.py` lines 138-142): all headers ordered by
`created_at` descending; the engine scans insertion order, so equal
timestamps keep it. -/
def get_all_invoices (db : DB) : List HeaderRow := sortByCreatedDesc db.headers

/-- The read `get_invoice_detail` (`app.py` lines 144-148): first header with the
given id, or `None`.  Only the header row itself is returned: the session
is closed (line 147) before the function returns, so the instance comes
back detached with its lazy `line_items` relationship never loaded. -/
def get_invoice_detail (db : DB) (iid : Nat) : Option HeaderRow :=
  db.headers.find? (fun h => h.id == iid)

/-- Reading `invoice.line_items` on the value `get_invoice_detail` returns,
as the detail page does (`app.py` line 272).  The relationship is lazy and
was never loaded while the session was open; `session.close()` detached
the instance, so the access raises `DetachedInstanceError` instead of
querying the items table: no item list is ever produced, whatever rows the
table holds. -/
def detachedLineItems (_ : HeaderRow) : Option (List LineRow) := none

/-- The line rows the items table actually holds for a header — what the
relationship would deliver if it were loaded before the session closed. -/
def itemsOfHeader (db : DB) (h : HeaderRow) : List LineRow :=
  db.items.filter (fun it => it.header_id == h.id)

theorem save_uploaded_foldl (ufiles : List UploadedFile) :
    ∀ acc : List Text × FileStore,
      (ufiles.foldl
        (fun acc file =>
          (acc.1 ++ [filePathOf file],
            ⟨acc.2.dirMade, acc.2.files ++ [(filePathOf file, file.content)]⟩))
        acc) =
      (acc.1 ++ ufiles.map filePathOf,
        ⟨acc.2.dirMade, acc.2.files ++ ufiles.map (fun f => (filePathOf f, f.content))⟩) := by
  induction ufiles with
  | nil => intro acc; simp
  | cons f fs ih =>
    intro acc
    rw [List.foldl_cons, ih]
    simp

/-- C8: for every sequence of uploaded images, the intake
returns exactly one locator per input image, in input order, creates the
storage area, and writes each image's bytes under its locator. -/
theorem c8_one_locator_per_image (ufiles : List UploadedFile) (fs : FileStore) :
    (save_uploaded_images ufiles fs).1 = ufiles.map filePathOf ∧
    (save_uploaded_images ufiles fs).2.dirMade = true ∧
    (save_uploaded_images ufiles fs).2.files =
      fs.files ++ ufiles.map (fun f => (filePathOf f, f.content)) := by
  rw [save_uploaded_images, save_uploaded_foldl]
  exact ⟨by simp, rfl, rfl⟩

theorem insertDesc_perm (x : HeaderRow) (l : List HeaderRow) :
    (insertDesc x l).Perm (x :: l) := by
  induction l with
  | nil => simp [insertDesc]
  | cons y ys ih =>
    rw [insertDesc]
    by_cases hc : x.created_at < y.created_at
    · rw [if_pos hc]
      exact (ih.cons y).trans (List.Perm.swap x y ys)
    · rw [if_neg hc]

theorem sortByCreatedDesc_perm (l : List HeaderRow) : (sortByCreatedDesc l).Perm l := by
  induction l with
  | nil => simp [sortByCreatedDesc]
  | cons x xs ih =>
    rw [sortByCreatedDesc]
    exact (insertDesc_perm x (sortByCreatedDesc xs)).trans (ih.cons x)

theorem mem_insertDesc {z x : HeaderRow} {l : List HeaderRow}
    (h : z ∈ insertDesc x l) : z = x ∨ z ∈ l := by
  have := (insertDesc_perm x l).mem_iff.mp h
  simpa using this

theorem insertDesc_sorted {x : HeaderRow} {l : List HeaderRow}
    (h : l.Pairwise (fun a b => b.created_at ≤ a.created_at)) :
    (insertDesc x l).Pairwise (fun a b => b.created_at ≤ a.created_at) := by
  induction l with
  | nil => simp [insertDesc]
  | cons y ys ih =>
    rw [insertDesc]
    rcases List.pairwise_cons.mp h with ⟨hy, hys⟩
    by_cases hc : x.created_at < y.created_at
    · rw [if_pos hc]
      apply List.pairwise_cons.mpr
      refine ⟨?_, ih hys⟩
      intro z hz
      rcases mem_insertDesc hz with hz | hz
      · subst hz; exact le_of_lt hc
      · exact hy z hz
    · rw [if_neg hc]
      apply List.pairwise_cons.mpr
      refine ⟨?_, h⟩
      intro z hz
      rcases List.mem_cons.mp hz with hz | hz
      · subst hz; exact le_of_not_lt hc
      · exact le_trans (hy z hz) (le_of_not_lt hc)

theorem sortByCreatedDesc_sorted (l : List HeaderRow) :
    (sortByCreatedDesc l).Pairwise (fun a b => b.created_at ≤ a.created_at) := by
  induction l with
  | nil => simp [sortByCreatedDesc]
  | cons x xs ih => exact insertDesc_sorted ih

theorem insertDesc_filter (x : HeaderRow) (l : List HeaderRow) (t : Nat) :
    (insertDesc x l).filter (fun h => h.created_at == t) =
      if x.created_at == t then x :: l.filter (fun h => h.created_at == t)
      else l.filter (fun h => h.created_at == t) := by
  induction l with
  | nil =>
    cases hx : x.created_at == t <;> simp [insertDesc, List.filter, hx]
  | cons y ys ih =>
    rw [insertDesc]
    by_cases hc : x.created_at < y.created_at
    · rw [if_pos hc]
      by_cases hy : y.created_at == t
      · have hx : (x.created_at == t) = false := by
          have ht : y.created_at = t := by simpa using hy
          have : x.created_at ≠ t := by omega
          simpa using this
        simp only [List.filter_cons, hy, ih, hx]
        simp
      · simp only [List.filter_cons, ih]
        simp [hy]
    · rw [if_neg hc]
      by_cases hx : x.created_at == t
      · simp [List.filter_cons, hx]
      · simp [List.filter_cons, hx]

theorem sortByCreatedDesc_filter (l : List HeaderRow) (t : Nat) :
    (sortByCreatedDesc l).filter (fun h => h.created_at == t) =
      l.filter (fun h => h.created_at == t) := by
  induction l with
  | nil => simp [sortByCreatedDesc]
  | cons x xs ih =>
    rw [sortByCreatedDesc, insertDesc_filter]
    by_cases hx : x.created_at == t
    · simp [hx, List.filter_cons, ih]
    · simp [hx, List.filter_cons, ih]

/-- C6: the read path `listInvoices` returns all headers ordered by `created_at`
descending; equal timestamps keep insertion order (the filter equation:
rows of any fixed timestamp appear exactly as stored); headers created at
times T1 < T2 < T3 come back as [T3, T2, T1]. -/
theorem c6_list_invoices_order :
    (∀ db, (get_all_invoices db).Pairwise (fun a b => b.created_at ≤ a.created_at)) ∧
    (∀ db, (get_all_invoices db).Perm db.headers) ∧
    (∀ db t, (get_all_invoices db).filter (fun h => h.created_at == t) =
      db.headers.filter (fun h => h.created_at == t)) ∧
    (∀ (h1 h2 h3 : HeaderRow) (its : List LineRow) (a b : Nat),
      h1.created_at < h2.created_at → h2.created_at < h3.created_at →
      get_all_invoices ⟨[h1, h2, h3], its, a, b⟩ = [h3, h2, h1]) := by
  refine ⟨fun db => sortByCreatedDesc_sorted _, fun db => sortByCreatedDesc_perm _,
    fun db t => sortByCreatedDesc_filter _ _, ?_⟩
  intro h1 h2 h3 its a b h12 h23
  have h13 : h1.created_at < h3.created_at := lt_trans h12 h23
  simp [get_all_invoices, sortByCreatedDesc, insertDesc, h12, h23, h13]

/-- Witness for C6 with three concrete headers created at times 1 < 2 < 3. -/
theorem c6_witness :
    (1 : Nat) < 2 ∧ (2 : Nat) < 3 ∧
    get_all_invoices
        ⟨[⟨10, JVal.null, JVal.null, JVal.null, JVal.null, [], 1⟩,
          ⟨11, JVal.null, JVal.null, JVal.null, JVal.null, [], 2⟩,
          ⟨12, JVal.null, JVal.null, JVal.null, JVal.null, [], 3⟩], [], 13, 0⟩ =
      [⟨12, JVal.null, JVal.null, JVal.null, JVal.null, [], 3⟩,
        ⟨11, JVal.null, JVal.null, JVal.null, JVal.null, [], 2⟩,
        ⟨10, JVal.null, JVal.null, JVal.null, JVal.null, [], 1⟩] :=
  ⟨by decide, by decide,
    c6_list_invoices_order.2.2.2 _ _ _ _ _ _ (by decide) (by decide)⟩

/-- C7: the `NotFound` half of the claim holds — `get_invoice_detail` on an
id assigned to no header returns `None`, never a default record, and a hit
returns the first stored header carrying that id.  The claim's "together
with its line items" fails in the code: the session is closed before the
return, so reading the lazy `line_items` relationship on the detached
instance raises instead of loading — concretely, for a store whose items
table holds exactly one line row belonging to header 1, the lookup finds
the header, yet the relationship access yields no item list at all. -/
theorem c7_get_invoice_notfound_items_unreachable :
    (∀ db iid, (∀ h ∈ db.headers, h.id ≠ iid) → get_invoice_detail db iid = none) ∧
    (∀ db iid h, get_invoice_detail db iid = some h → h ∈ db.headers ∧ h.id = iid) ∧
    (∀ h, detachedLineItems h = none) ∧
    (get_invoice_detail
        ⟨[⟨1, JVal.null, JVal.null, JVal.null, JVal.null, [], 0⟩],
          [⟨1, 1, JVal.null, JVal.null, JVal.null, JVal.null⟩], 2, 2⟩ 1 =
      some ⟨1, JVal.null, JVal.null, JVal.null, JVal.null, [], 0⟩ ∧
    itemsOfHeader
        ⟨[⟨1, JVal.null, JVal.null, JVal.null, JVal.null, [], 0⟩],
          [⟨1, 1, JVal.null, JVal.null, JVal.null, JVal.null⟩], 2, 2⟩
        ⟨1, JVal.null, JVal.null, JVal.null, JVal.null, [], 0⟩ =
      [⟨1, 1, JVal.null, JVal.null, JVal.null, JVal.null⟩] ∧
    detachedLineItems ⟨1, JVal.null, JVal.null, JVal.null, JVal.null, [], 0⟩ =
      none) := by
  refine ⟨?_, ?_, fun h => rfl, rfl, rfl, rfl⟩
  · intro db iid hno
    rw [get_invoice_detail]
    rw [List.find?_eq_none.mpr ?_]
    intro h hmem
    simpa using hno h hmem
  · intro db iid h hg
    rw [get_invoice_detail] at hg
    refine ⟨List.mem_of_find?_eq_some hg, ?_⟩
    have := List.find?_some hg
    simpa using this

/-- Witness for C7: a store holding header id 5, queried for id 7. -/
theorem c7_witness :
    (∀ h ∈ (⟨[⟨5, JVal.null, JVal.null, JVal.null, JVal.null, [], 0⟩], [], 6, 0⟩ :
        DB).headers, h.id ≠ 7) ∧
    get_invoice_detail
      ⟨[⟨5, JVal.null, JVal.null, JVal.null, JVal.null, [], 0⟩], [], 6, 0⟩ 7 = none :=
  ⟨by decide, c7_get_invoice_notfound_items_unreachable.1 _ _ (by decide)⟩

theorem addLines_length {failAt : Option Nat} :
    ∀ {items : List JVal} {stepNo hid lid : Nat} {rows : List LineRow},
      addLines failAt stepNo hid lid items = some rows → rows.length = items.length := by
  intro items
  induction items with
  | nil =>
    intro stepNo hid lid rows h
    simp only [addLines] at h
    rw [← Option.some.inj h]
    rfl
  | cons item rest ih =>
    intro stepNo hid lid rows h
    simp only [addLines] at h
    split at h
    · exact absurd h (by simp)
    · split at h
      · rename_i ikvs
        split at h
        · rename_i rows' hrec
          rw [← Option.some.inj h]
          simp [ih hrec]
        · exact absurd h (by simp)
      · exact absurd h (by simp)

/-- Case analysis for `save_invoice_to_db`: every run either leaves the
database untouched and returns `None`, or commits exactly the new header
and one line row per `line_items` entry and returns the new id. -/
theorem save_invoice_cases (failAt : Option Nat) (now : Nat) (data : JVal)
    (ipaths : List Text) (db : DB) :
    save_invoice_to_db failAt now data ipaths db = (none, db) ∨
    ∃ kvs items rows,
      data = JVal.obj kvs ∧ lineItemsVal kvs = JVal.arr items ∧
      addLines failAt 1 db.nextHeaderId db.nextItemId items = some rows ∧
      rows.length = items.length ∧
      save_invoice_to_db failAt now data ipaths db =
        (some db.nextHeaderId,
          ⟨db.headers ++ [headerRowOf db.nextHeaderId now kvs ipaths],
            db.items ++ rows, db.nextHeaderId + 1, db.nextItemId + rows.length⟩) := by
  match data with
  | JVal.null => left; rfl
  | JVal.bool b => left; rfl
  | JVal.num t => left; rfl
  | JVal.str t => left; rfl
  | JVal.arr xs => left; rfl
  | JVal.obj kvs =>
    by_cases h0 : failAt = some 0
    · left; simp only [save_invoice_to_db, if_pos h0]
    · rcases hli : lineItemsVal kvs with _ | b | t | t | items | ms
      · left; simp only [save_invoice_to_db, if_neg h0, hli]
      · left; simp only [save_invoice_to_db, if_neg h0, hli]
      · left; simp only [save_invoice_to_db, if_neg h0, hli]
      · left; simp only [save_invoice_to_db, if_neg h0, hli]
      · rcases ha : addLines failAt 1 db.nextHeaderId db.nextItemId items with _ | rows
        · left; simp only [save_invoice_to_db, if_neg h0, hli, ha]
        · by_cases hc : failAt = some (items.length + 1)
          · left; simp only [save_invoice_to_db, if_neg h0, hli, ha, if_pos hc]
          · right
            refine ⟨kvs, items, rows, rfl, hli, ha, addLines_length ha, ?_⟩
            simp only [save_invoice_to_db, if_neg h0, hli, ha, if_neg hc]
      · left; simp only [save_invoice_to_db, if_neg h0, hli]

/-- C1: `createInvoice` is atomic.  For every extracted record, locator
list, database state and injected failure point, the call either commits
exactly one header row (whose `image_paths` is the comma-join of the
locators) plus one line row per `line_items` entry and returns the new id,
or returns the error outcome (`None`) with the database unchanged — in
particular a failure injected right after the header insert and before the
line-item inserts (`failAt = some 1`) leaves zero new rows in both tables. -/
theorem c1_create_invoice_atomic :
    (∀ failAt now data ipaths db,
      save_invoice_to_db failAt now data ipaths db = (none, db) ∨
      ∃ kvs items rows,
        data = JVal.obj kvs ∧ lineItemsVal kvs = JVal.arr items ∧
        rows.length = items.length ∧
        (headerRowOf db.nextHeaderId now kvs ipaths).image_paths = joinComma ipaths ∧
        save_invoice_to_db failAt now data ipaths db =
          (some db.nextHeaderId,
            ⟨db.headers ++ [headerRowOf db.nextHeaderId now kvs ipaths],
              db.items ++ rows, db.nextHeaderId + 1, db.nextItemId + rows.length⟩)) ∧
    (∀ now data ipaths db,
      save_invoice_to_db (some 1) now data ipaths db = (none, db)) := by
  constructor
  · intro failAt now data ipaths db
    rcases save_invoice_cases failAt now data ipaths db with h | ⟨kvs, items, rows, h1, h2, h3, h4, h5⟩
    · exact Or.inl h
    · exact Or.inr ⟨kvs, items, rows, h1, h2, h4, rfl, h5⟩
  · intro now data ipaths db
    match data with
    | JVal.null => rfl
    | JVal.bool b => rfl
    | JVal.num t => rfl
    | JVal.str t => rfl
    | JVal.arr xs => rfl
    | JVal.obj kvs =>
      have h0 : ¬ ((some 1 : Option Nat) = some 0) := by decide
      rcases hli : lineItemsVal kvs with _ | b | t | t | items | ms
      · simp only [save_invoice_to_db, if_neg h0, hli]
      · simp only [save_invoice_to_db, if_neg h0, hli]
      · simp only [save_invoice_to_db, if_neg h0, hli]
      · simp only [save_invoice_to_db, if_neg h0, hli]
      · match items with
        | [] => simp [save_invoice_to_db, if_neg h0, hli, addLines]
        | i :: rest => simp [save_invoice_to_db, if_neg h0, hli, addLines]
      · simp only [save_invoice_to_db, if_neg h0, hli]

/-- C9 as stated is false: nothing constrains uploaded filenames, so a file
named `a,b.jpg` produces the locator `uploaded_images/a,b.jpg`, which
contains the comma delimiter; the stored `image_paths` column is that
locator verbatim and splitting it on commas does not recover the original
single-locator sequence. -/
theorem c9_counterexample :
    (save_uploaded_images [⟨chars "a,b.jpg", []⟩] ⟨false, []⟩).1 =
      [chars "uploaded_images/a,b.jpg"] ∧
    ',' ∈ chars "uploaded_images/a,b.jpg" ∧
    (save_invoice_to_db none 0 (JVal.obj []) [chars "uploaded_images/a,b.jpg"]
        ⟨[], [], 1, 1⟩).2.headers.map (fun h => h.image_paths) =
      [chars "uploaded_images/a,b.jpg"] ∧
    splitComma (joinComma [chars "uploaded_images/a,b.jpg"]) ≠
      [chars "uploaded_images/a,b.jpg"] :=
  ⟨rfl, by decide, rfl, by decide⟩

/-- C9 (amended): every committed header stores `image_paths` as exactly the
comma-join of the input locators; the serialization is only unambiguous
when no locator contains a comma — under that condition (which the code
does not enforce) splitting recovers the original non-empty sequence. -/
theorem c9_image_paths_join :
    (∀ failAt now data ipaths db,
      (save_invoice_to_db failAt now data ipaths db).2.headers = db.headers ∨
      ∃ hdr, (save_invoice_to_db failAt now data ipaths db).2.headers =
          db.headers ++ [hdr] ∧ hdr.image_paths = joinComma ipaths) ∧
    (∀ ipaths : List Text, ipaths ≠ [] → (∀ p ∈ ipaths, ',' ∉ p) →
      splitComma (joinComma ipaths) = ipaths) := by
  constructor
  · intro failAt now data ipaths db
    rcases save_invoice_cases failAt now data ipaths db with h | ⟨kvs, items, rows, h1, h2, h3, h4, h5⟩
    · left; rw [h]
    · right
      exact ⟨headerRowOf db.nextHeaderId now kvs ipaths, by rw [h5], rfl⟩
  · intro ipaths hne hnc
    exact List.splitOn_intercalate ipaths ',' hnc hne

/-- Witness for C9's amended statement on comma-free locators. -/
theorem c9_witness :
    ([chars "u/a.jpg", chars "u/b.jpg"] : List Text) ≠ [] ∧
    (∀ p ∈ ([chars "u/a.jpg", chars "u/b.jpg"] : List Text), ',' ∉ p) ∧
    splitComma (joinComma [chars "u/a.jpg", chars "u/b.jpg"]) =
      [chars "u/a.jpg", chars "u/b.jpg"] :=
  ⟨by decide, by decide, c9_image_paths_join.2 _ (by decide) (by decide)⟩

theorem dGet_not_hasKey {kvs : List (Text × JVal)} {k : Text}
    (h : hasKey kvs k = false) : dGet kvs k = JVal.null := by
  have hall : ∀ p ∈ kvs.reverse, ¬ ((p.1 == k) = true) := by
    intro p hp
    have hmem := List.mem_reverse.mp hp
    have := List.any_eq_false.mp h p hmem
    simpa using this
  rw [dGet, List.find?_eq_none.mpr hall]

theorem hasKey_append_single {kvs : List (Text × JVal)} {k0 k : Text} {v0 : JVal}
    (h : (k0 == k) = false) : hasKey (kvs ++ [(k0, v0)]) k = hasKey kvs k := by
  simp [hasKey, List.any_append, h]

theorem dGet_append_single {kvs : List (Text × JVal)} {k0 k : Text} {v0 : JVal}
    (h : (k0 == k) = false) : dGet (kvs ++ [(k0, v0)]) k = dGet kvs k := by
  rw [dGet, dGet, List.reverse_append]
  simp only [List.reverse_cons, List.reverse_nil, List.nil_append, List.singleton_append]
  rw [List.find?_cons_of_neg]
  simp [h]

/-- The keys the store reads from the extracted record. -/
def modeledKeys : List Text :=
  [chars "supplier", chars "invoice_date", chars "total_amount", chars "tax",
    chars "line_items"]

theorem beq_false_of_not_modeled {k0 : Text} (hk : k0 ∉ modeledKeys) {k : Text}
    (hmem : k ∈ modeledKeys) : (k0 == k) = false := by
  apply beq_eq_false_iff_ne.mpr
  intro he
  subst he
  exact hk hmem

theorem lineItemsVal_append {kvs : List (Text × JVal)} {k0 : Text} {v0 : JVal}
    (hk : k0 ∉ modeledKeys) :
    lineItemsVal (kvs ++ [(k0, v0)]) = lineItemsVal kvs := by
  have hb : (k0 == chars "line_items") = false :=
    beq_false_of_not_modeled hk (by simp [modeledKeys])
  rw [lineItemsVal, lineItemsVal, hasKey_append_single hb, dGet_append_single hb]

theorem headerRowOf_append {hid now : Nat} {kvs : List (Text × JVal)} {k0 : Text}
    {v0 : JVal} {ipaths : List Text} (hk : k0 ∉ modeledKeys) :
    headerRowOf hid now (kvs ++ [(k0, v0)]) ipaths = headerRowOf hid now kvs ipaths := by
  have h1 : (k0 == chars "supplier") = false :=
    beq_false_of_not_modeled hk (by simp [modeledKeys])
  have h2 : (k0 == chars "invoice_date") = false :=
    beq_false_of_not_modeled hk (by simp [modeledKeys])
  have h3 : (k0 == chars "total_amount") = false :=
    beq_false_of_not_modeled hk (by simp [modeledKeys])
  have h4 : (k0 == chars "tax") = false :=
    beq_false_of_not_modeled hk (by simp [modeledKeys])
  simp only [headerRowOf]
  rw [dGet_append_single h1, dGet_append_single h2, dGet_append_single h3,
    dGet_append_single h4]

/-- C5: optional reads with null defaults.  Header fields absent from the
extracted object are stored as NULL; line-item fields absent from an entry
are stored as NULL; an absent `line_items` key reads as the empty sequence,
so a commit then adds no line rows; and a binding for any key outside the
modeled set is ignored by the whole save. -/
theorem c5_optional_fields_null_defaults :
    (∀ hid now kvs ipaths,
      (hasKey kvs (chars "supplier") = false →
        (headerRowOf hid now kvs ipaths).supplier = JVal.null) ∧
      (hasKey kvs (chars "invoice_date") = false →
        (headerRowOf hid now kvs ipaths).invoice_date = JVal.null) ∧
      (hasKey kvs (chars "total_amount") = false →
        (headerRowOf hid now kvs ipaths).total_amount = JVal.null) ∧
      (hasKey kvs (chars "tax") = false →
        (headerRowOf hid now kvs ipaths).tax = JVal.null)) ∧
    (∀ lid hid ikvs,
      (hasKey ikvs (chars "description") = false →
        (lineRowOf lid hid ikvs).description = JVal.null) ∧
      (hasKey ikvs (chars "quantity") = false →
        (lineRowOf lid hid ikvs).quantity = JVal.null) ∧
      (hasKey ikvs (chars "unit_price") = false →
        (lineRowOf lid hid ikvs).unit_price = JVal.null) ∧
      (hasKey ikvs (chars "amount") = false →
        (lineRowOf lid hid ikvs).amount = JVal.null)) ∧
    (∀ kvs, hasKey kvs (chars "line_items") = false → lineItemsVal kvs = JVal.arr []) ∧
    (∀ kvs now ipaths db, hasKey kvs (chars "line_items") = false →
      (save_invoice_to_db none now (JVal.obj kvs) ipaths db).1 = some db.nextHeaderId ∧
      (save_invoice_to_db none now (JVal.obj kvs) ipaths db).2.items = db.items) ∧
    (∀ (k0 : Text) (v0 : JVal) kvs, k0 ∉ modeledKeys →
      ∀ failAt now ipaths db,
        save_invoice_to_db failAt now (JVal.obj (kvs ++ [(k0, v0)])) ipaths db =
          save_invoice_to_db failAt now (JVal.obj kvs) ipaths db) := by
  refine ⟨?_, ?_, ?_, ?_, ?_⟩
  · intro hid now kvs ipaths
    exact ⟨fun h => dGet_not_hasKey h, fun h => dGet_not_hasKey h,
      fun h => dGet_not_hasKey h, fun h => dGet_not_hasKey h⟩
  · intro lid hid ikvs
    exact ⟨fun h => dGet_not_hasKey h, fun h => dGet_not_hasKey h,
      fun h => dGet_not_hasKey h, fun h => dGet_not_hasKey h⟩
  · intro kvs h
    rw [lineItemsVal, h]
    rw [if_neg (by simp)]
  · intro kvs now ipaths db h
    have hli : lineItemsVal kvs = JVal.arr [] := by
      rw [lineItemsVal, h]
      rw [if_neg (by simp)]
    have h0 : ¬ ((none : Option Nat) = some 0) := by simp
    constructor
    · simp [save_invoice_to_db, if_neg h0, hli, addLines]
    · simp [save_invoice_to_db, if_neg h0, hli, addLines]
  · intro k0 v0 kvs hk failAt now ipaths db
    simp only [save_invoice_to_db, lineItemsVal_append hk, headerRowOf_append hk]

/-- Witness for C5 at concrete records. -/
theorem c5_witness :
    hasKey [] (chars "supplier") = false ∧
    (headerRowOf 1 0 [] []).supplier = JVal.null ∧
    hasKey [(chars "x", JVal.num ['1'])] (chars "line_items") = false ∧
    lineItemsVal [(chars "x", JVal.num ['1'])] = JVal.arr [] ∧
    (chars "note") ∉ modeledKeys ∧
    save_invoice_to_db none 0 (JVal.obj ([] ++ [(chars "note", JVal.null)])) []
        ⟨[], [], 1, 1⟩ =
      save_invoice_to_db none 0 (JVal.obj []) [] ⟨[], [], 1, 1⟩ :=
  ⟨rfl, (c5_optional_fields_null_defaults.1 1 0 [] []).1 rfl, rfl,
    c5_optional_fields_null_defaults.2.2.1 _ rfl, by decide,
    c5_optional_fields_null_defaults.2.2.2.2 _ JVal.null _ (by decide) none 0 [] _⟩
